import Mathlib

/-!
Shallow embedding of the ecs-rs storage core: the type-erased growable
byte buffer (src/buffer.rs), the per-component-type sparse store
(src/component.rs), and the entity identity allocator and registry
(src/entity.rs).  Machine integers (uint) are modelled as Nat (no
arithmetic in the source can overflow on the inputs considered), byte
vectors as List Nat, the Bitv bitmap as List Bool, and operations that
can fail Rust bounds checks (task panic) return Option.
-/

/-- The old Vec::grow / Bitv::grow: append n copies of a fill value. -/
def vgrow {α : Type} (l : List α) (n : Nat) (x : α) : List α :=
  l ++ List.replicate n x

/-- Overwrite the bytes of a list starting at offset o with the bytes of v
(the in-place slice store). In every use below the write is in bounds,
matching the slice bound check in the source. -/
def writeBytes (l : List Nat) (o : Nat) (v : List Nat) : List Nat :=
  l.take o ++ v ++ l.drop (o + v.length)

/-- The Bitv::get read. The source asserts the index is in range; every
call site in component.rs guards it with an explicit length test, so the
out-of-range default false is never observed there. -/
def bget : List Bool → Nat → Bool
  | [], _ => false
  | b :: _, 0 => b
  | _ :: l, i + 1 => bget l i

/-- The Bitv::set write; in-range at every call site that reaches it. -/
def bset : List Bool → Nat → Bool → List Bool
  | [], _, _ => []
  | _ :: l, 0, v => v :: l
  | b :: l, i + 1, v => b :: bset l i v

/-- Buffer (src/buffer.rs): a growable byte region plus a fixed stride,
the byte size of the element type it was created for. -/
structure Buffer where
  bytes : List Nat
  stride : Nat
deriving DecidableEq

/-- Buffer::new::<T>: empty bytes, stride = size_of::<T>(). -/
def Buffer.new (sz : Nat) : Buffer := ⟨[], sz⟩

/-- Buffer::len: bytes.len() / stride. -/
def Buffer.len (b : Buffer) : Nat := b.bytes.length / b.stride

/-- Buffer::bytes_len. -/
def Buffer.bytes_len (b : Buffer) : Nat := b.bytes.length

/-- The IndexMut impl (buffer.rs lines 29-36) followed by the element
store: offset = stride * index; if offset >= bytes.len() the region grows
by offset - len + stride zero bytes; then the value bytes v (an element
of the view type T, so v.length bytes) are written at as_mut_slice
position index, byte offset v.length * index. -/
def Buffer.writeAt (b : Buffer) (i : Nat) (v : List Nat) : Buffer :=
  let offset := b.stride * i
  let grown :=
    if b.bytes.length ≤ offset then
      vgrow b.bytes (offset - b.bytes.length + b.stride) 0
    else b.bytes
  ⟨writeBytes grown (v.length * i) v, b.stride⟩

/-- The Index impl (buffer.rs lines 21-23): read element i of the
as_slice view of element size sz; the slice length is len(), and an
out-of-range index is a bounds panic, modelled none. -/
def Buffer.readAt (b : Buffer) (sz i : Nat) : Option (List Nat) :=
  if i < Buffer.len b then some ((b.bytes.drop (sz * i)).take sz) else none

/-- A component value passed to the store: the runtime type tag
TypeId::of::<T>().hash() and the value bytes (length size_of::<T>()). -/
structure CompValue where
  cid : Nat
  bytes : List Nat
deriving DecidableEq

/-- ComponentList (src/component.rs): one buffer, the existence bitmap,
and the fixed ComponentId of the store element type. -/
structure ComponentList where
  buffer : Buffer
  enabled : List Bool
  id : Nat
deriving DecidableEq

/-- ComponentList::new::<T> for a type of tag cid and size sz. -/
def ComponentList.new (cid sz : Nat) : ComponentList :=
  ⟨Buffer.new sz, [], cid⟩

/-- ComponentList::add (component.rs lines 38-59). -/
def ComponentList.add (st : ComponentList) (e : Nat) (v : CompValue) :
    ComponentList × Bool :=
  if e < st.enabled.length ∧ bget st.enabled e = true then (st, false)
  else if v.cid ≠ st.id then (st, false)
  else
    let buf := st.buffer.writeAt e v.bytes
    let en :=
      if st.enabled.length ≤ e then
        vgrow st.enabled (e - st.enabled.length + 1) false
      else st.enabled
    (⟨buf, bset en e true, st.id⟩, true)

/-- ComponentList::set (component.rs lines 61-76). -/
def ComponentList.set (st : ComponentList) (e : Nat) (v : CompValue) :
    ComponentList × Bool :=
  if st.enabled.length ≤ e ∨ bget st.enabled e = false then (st, false)
  else if v.cid ≠ st.id then (st, false)
  else (⟨st.buffer.writeAt e v.bytes, st.enabled, st.id⟩, true)

/-- ComponentList::add_or_set (component.rs lines 78-95). -/
def ComponentList.add_or_set (st : ComponentList) (e : Nat) (v : CompValue) :
    ComponentList × Bool :=
  if v.cid ≠ st.id then (st, false)
  else
    let buf := st.buffer.writeAt e v.bytes
    let en :=
      if st.enabled.length ≤ e then
        vgrow st.enabled (e - st.enabled.length + 1) false
      else st.enabled
    (⟨buf, bset en e true, st.id⟩, true)

/-- ComponentList::has (component.rs lines 97-100). -/
def ComponentList.has (st : ComponentList) (e : Nat) : Bool :=
  decide (e < st.enabled.length) && bget st.enabled e

/-- ComponentList::get (component.rs lines 102-112) at element size sz:
when the slot is enabled the stored row is returned by value, as in the
borrow_mut accessor; an enabled slot with no buffer row would be a
bounds panic in the read, folded into none here (unreachable from the
empty store, see the enabled-implies-row invariant below). -/
def ComponentList.get (st : ComponentList) (sz e : Nat) : Option (List Nat) :=
  if e < st.enabled.length ∧ bget st.enabled e = true then
    st.buffer.readAt sz e
  else none

/-- ComponentList::rm (component.rs lines 138-149). -/
def ComponentList.rm (st : ComponentList) (e : Nat) : ComponentList × Bool :=
  if e < st.enabled.length ∧ bget st.enabled e = true then
    (⟨st.buffer, bset st.enabled e false, st.id⟩, true)
  else (st, false)

/-- ComponentList::get_cid. -/
def ComponentList.get_cid (st : ComponentList) : Nat := st.id

/-- Entity (src/entity.rs): the slot index and the uuid.  The 128-bit
Uuid is modelled as a Nat with 0 = Uuid::nil(). -/
structure Entity where
  index : Nat
  uuid : Nat
deriving DecidableEq

/-- Entity::nil. -/
def Entity.nil : Entity := ⟨0, 0⟩

/-- IdPool (entity.rs lines 138-153). -/
structure IdPool where
  recycled : List Nat
  next_id : Nat
deriving DecidableEq

/-- IdPool::new: empty free list, counter starts at 1. -/
def IdPool.new : IdPool := ⟨[], 1⟩

/-- IdPool::get_id (entity.rs lines 155-165): pop the free list (Vec::pop
removes the last element) if non-empty, else return the counter and
increment it. -/
def IdPool.get_id (p : IdPool) : Nat × IdPool :=
  match p.recycled.getLast? with
  | some id => (id, ⟨p.recycled.dropLast, p.next_id⟩)
  | none => (p.next_id, ⟨p.recycled, p.next_id + 1⟩)

/-- IdPool::return_id (entity.rs lines 167-170): push onto the free list. -/
def IdPool.return_id (p : IdPool) (id : Nat) : IdPool :=
  ⟨p.recycled ++ [id], p.next_id⟩

/-- EntityManager (entity.rs lines 82-87).  The uuidCtr field models the
external uuid crate generator: Uuid::new_v4() draws fresh random values,
embedded as a counter whose successive values are pairwise distinct and
never the nil uuid. -/
structure EntityManager where
  ids : IdPool
  entities : List Entity
  enabled : List Bool
  uuidCtr : Nat
deriving DecidableEq

/-- EntityManager::new. -/
def EntityManager.new : EntityManager := ⟨IdPool.new, [], [], 0⟩

/-- EntityManager::create_entity (entity.rs lines 103-120). -/
def EntityManager.create_entity (m : EntityManager) : Entity × EntityManager :=
  let gp := m.ids.get_id
  let u := m.uuidCtr + 1
  let ret : Entity := ⟨gp.1, u⟩
  let ents :=
    if m.entities.length ≤ gp.1 then
      vgrow m.entities (gp.1 - m.entities.length + 1) Entity.nil
    else m.entities
  let ents2 := ents.set gp.1 ret
  let en :=
    if m.enabled.length ≤ gp.1 then
      vgrow m.enabled (gp.1 - m.enabled.length + 1) false
    else m.enabled
  let en2 := bset en gp.1 true
  (ret, ⟨gp.2, ents2, en2, u⟩)

/-- EntityManager::is_valid (entity.rs lines 123-127): the raw indexing
self.entities[index] is a bounds panic out of range (none); the second
conjunct is only evaluated when the first holds, and its Bitv indexing
panics out of range too. -/
def EntityManager.is_valid (m : EntityManager) (e : Entity) : Option Bool :=
  match m.entities[e.index]? with
  | none => none
  | some owner =>
    if owner = e then m.enabled[e.index]? else some false

/-- EntityManager::delete_entity (entity.rs lines 129-135): the slot
write, the bitmap clear and the id release, each a bounds panic when the
index is out of range (none). -/
def EntityManager.delete_entity (m : EntityManager) (e : Entity) :
    Option EntityManager :=
  if e.index < m.entities.length ∧ e.index < m.enabled.length then
    some ⟨m.ids.return_id e.index, m.entities.set e.index Entity.nil,
          bset m.enabled e.index false, m.uuidCtr⟩
  else none

/-- A pool operation in a run: one get_id call or one return_id call. -/
inductive PoolOp
  | acquire : PoolOp
  | release : Nat → PoolOp
deriving DecidableEq

/-- Run a list of pool operations from a pool state paired with the list
of all ids issued so far. -/
def poolRun : List PoolOp → IdPool × List Nat → IdPool × List Nat
  | [], s => s
  | PoolOp.acquire :: ops, s =>
      poolRun ops ((s.1.get_id).2, (s.1.get_id).1 :: s.2)
  | PoolOp.release id :: ops, s => poolRun ops (s.1.return_id id, s.2)

/-- The run releases only previously issued ids. -/
def onlyIssued : List PoolOp → IdPool × List Nat → Bool
  | [], _ => true
  | PoolOp.acquire :: ops, s =>
      onlyIssued ops ((s.1.get_id).2, (s.1.get_id).1 :: s.2)
  | PoolOp.release id :: ops, s =>
      s.2.contains id && onlyIssued ops (s.1.return_id id, s.2)

/-- A store operation: the four mutators of ComponentList. -/
inductive SOp
  | addOp : Nat → CompValue → SOp
  | setOp : Nat → CompValue → SOp
  | aosOp : Nat → CompValue → SOp
  | rmOp : Nat → SOp
deriving DecidableEq

/-- Apply one store operation, keeping the state. -/
def sApply (st : ComponentList) : SOp → ComponentList
  | SOp.addOp e v => (st.add e v).1
  | SOp.setOp e v => (st.set e v).1
  | SOp.aosOp e v => (st.add_or_set e v).1
  | SOp.rmOp e => (st.rm e).1

/-- Run a list of store operations. -/
def sRun (st : ComponentList) : List SOp → ComponentList
  | [] => st
  | op :: ops => sRun (sApply st op) ops

/-- Every value in the operation list is of the store element type: tag
cid and byte size sz. -/
def sWF (cid sz : Nat) : List SOp → Bool
  | [] => true
  | SOp.addOp _ v :: ops => decide (v.cid = cid) && decide (v.bytes.length = sz) && sWF cid sz ops
  | SOp.setOp _ v :: ops => decide (v.cid = cid) && decide (v.bytes.length = sz) && sWF cid sz ops
  | SOp.aosOp _ v :: ops => decide (v.cid = cid) && decide (v.bytes.length = sz) && sWF cid sz ops
  | SOp.rmOp _ :: ops => sWF cid sz ops

/-- Registry states reachable from new by create calls and by delete
calls whose argument is currently valid (the spec precondition that
delete is applied only to valid entities). -/
inductive EMReach : EntityManager → Prop
  | init : EMReach EntityManager.new
  | create (m : EntityManager) : EMReach m → EMReach (m.create_entity).2
  | delete (m : EntityManager) (e : Entity) (m2 : EntityManager) :
      EMReach m → m.is_valid e = some true →
      m.delete_entity e = some m2 → EMReach m2

/-! ## Helper lemmas about the list primitives -/

theorem length_vgrow {α : Type} (l : List α) (n : Nat) (x : α) :
    (vgrow l n x).length = l.length + n := by
  simp [vgrow]

theorem length_bset (l : List Bool) (i : Nat) (v : Bool) :
    (bset l i v).length = l.length := by
  induction l generalizing i with
  | nil => rfl
  | cons b t ih =>
    cases i with
    | zero => rfl
    | succ j => simp [bset, ih]

theorem bget_bset_eq (l : List Bool) (i : Nat) (v : Bool) (h : i < l.length) :
    bget (bset l i v) i = v := by
  induction l generalizing i with
  | nil => simp at h
  | cons b t ih =>
    cases i with
    | zero => rfl
    | succ j => exact ih j (by simpa using h)

theorem bget_bset_ne (l : List Bool) (i j : Nat) (v : Bool) (h : j ≠ i) :
    bget (bset l i v) j = bget l j := by
  induction l generalizing i j with
  | nil => rfl
  | cons b t ih =>
    cases i with
    | zero =>
      cases j with
      | zero => exact absurd rfl h
      | succ jj => rfl
    | succ ii =>
      cases j with
      | zero => rfl
      | succ jj => exact ih ii jj (by omega)

theorem bset_oob (l : List Bool) (i : Nat) (v : Bool) (h : l.length ≤ i) :
    bset l i v = l := by
  induction l generalizing i with
  | nil => rfl
  | cons b t ih =>
    cases i with
    | zero => simp at h
    | succ j => simp [bset, ih j (by simpa using h)]

theorem bget_oob (l : List Bool) (i : Nat) (h : l.length ≤ i) :
    bget l i = false := by
  induction l generalizing i with
  | nil => rfl
  | cons b t ih =>
    cases i with
    | zero => simp at h
    | succ j => exact ih j (by simpa using h)

theorem bget_replicate_false (n i : Nat) :
    bget (List.replicate n false) i = false := by
  induction n generalizing i with
  | zero => rfl
  | succ m ih =>
    cases i with
    | zero => rfl
    | succ j => simpa [List.replicate] using ih j

theorem bget_vgrow_false (l : List Bool) (n i : Nat) :
    bget (vgrow l n false) i = bget l i := by
  induction l generalizing i with
  | nil => simpa [vgrow] using bget_replicate_false n i
  | cons b t ih =>
    cases i with
    | zero => rfl
    | succ j => simpa [vgrow] using ih j

theorem getElem?_bget (l : List Bool) (i : Nat) (h : i < l.length) :
    l[i]? = some (bget l i) := by
  induction l generalizing i with
  | nil => simp at h
  | cons b t ih =>
    cases i with
    | zero => simp [bget]
    | succ j => simpa [bget] using ih j (by simpa using h)

theorem length_writeBytes (l v : List Nat) (o : Nat) :
    (writeBytes l o v).length = min o l.length + v.length + (l.length - (o + v.length)) := by
  simp [writeBytes]; omega

theorem stride_writeAt (b : Buffer) (i : Nat) (v : List Nat) :
    (b.writeAt i v).stride = b.stride := rfl

theorem length_bytes_writeAt (b : Buffer) (i : Nat) (v : List Nat)
    (hv : v.length = b.stride) :
    (b.writeAt i v).bytes.length = max b.bytes.length (b.stride * (i + 1)) := by
  unfold Buffer.writeAt
  by_cases h : b.bytes.length ≤ b.stride * i
  · simp only [h, if_pos]
    rw [length_writeBytes, length_vgrow, hv]
    have hmul : b.stride * (i + 1) = b.stride * i + b.stride := by ring
    omega
  · simp only [h, if_neg, not_false_iff]
    rw [length_writeBytes, hv]
    have hmul : b.stride * (i + 1) = b.stride * i + b.stride := by ring
    omega

theorem drop_writeAt (b : Buffer) (i : Nat) (v : List Nat)
    (hv : v.length = b.stride) :
    ((b.writeAt i v).bytes.drop (v.length * i)).take v.length = v := by
  unfold Buffer.writeAt writeBytes
  dsimp only
  set g := (if b.bytes.length ≤ b.stride * i then
      vgrow b.bytes (b.stride * i - b.bytes.length + b.stride) 0
    else b.bytes) with hg
  have ho : v.length * i ≤ g.length := by
    rw [hg]
    by_cases h : b.bytes.length ≤ b.stride * i
    · simp only [h, if_pos]
      rw [length_vgrow]
      have : v.length * i = b.stride * i := by rw [hv]
      omega
    · simp only [h, if_neg, not_false_iff]
      have : v.length * i = b.stride * i := by rw [hv]
      omega
  have htl : (g.take (v.length * i)).length = v.length * i := by
    rw [List.length_take]
    omega
  rw [List.append_assoc, List.drop_append_eq_append_drop,
    List.drop_eq_nil_of_le (le_of_eq htl), htl, Nat.sub_self, List.drop_zero,
    List.nil_append, List.take_left]

theorem readAt_writeAt (b : Buffer) (i : Nat) (v : List Nat)
    (hv : v.length = b.stride) (hs : 0 < b.stride) :
    (b.writeAt i v).readAt b.stride i = some v := by
  have hlen : (b.writeAt i v).bytes.length = max b.bytes.length (b.stride * (i + 1)) :=
    length_bytes_writeAt b i v hv
  have hlt : i < Buffer.len (b.writeAt i v) := by
    have h2 : i + 1 ≤ max b.bytes.length (b.stride * (i + 1)) / b.stride :=
      (Nat.le_div_iff_mul_le hs).mpr
        (by nlinarith [le_max_right b.bytes.length (b.stride * (i + 1))])
    unfold Buffer.len
    rw [stride_writeAt, hlen]
    exact h2
  unfold Buffer.readAt
  rw [if_pos hlt]
  have hrow := drop_writeAt b i v hv
  rw [hv] at hrow
  rw [hrow]

/-- Invariant carried by every pool run: the counter stays positive, all
issued ids are positive, and the free list holds only issued ids. -/
def poolInv (s : IdPool × List Nat) : Prop :=
  1 ≤ s.1.next_id ∧ (∀ i ∈ s.2, 1 ≤ i) ∧ (∀ r ∈ s.1.recycled, r ∈ s.2)

/-- Invariant of a component store: fixed tag, fixed stride, and every
enabled slot has a full buffer row. -/
def clInv (cid sz : Nat) (st : ComponentList) : Prop :=
  st.id = cid ∧ st.buffer.stride = sz ∧
  ∀ i, bget st.enabled i = true → sz * (i + 1) ≤ st.buffer.bytes.length

/-- Invariant of the entity registry under the valid-delete discipline:
positive counter and free list, slot 0 never enabled, and the two
parallel arrays keep equal length. -/
def EMInv (m : EntityManager) : Prop :=
  1 ≤ m.ids.next_id ∧ (∀ r ∈ m.ids.recycled, 1 ≤ r) ∧
  bget m.enabled 0 = false ∧ m.entities.length = m.enabled.length

/-- A registry holding exactly one live entity, used as a concrete
instance in witnesses. -/
def emOne : EntityManager := (EntityManager.new.create_entity).2

/-- A concrete store for a 2-byte element type with tag 7, slot 1
occupied, used as a concrete instance in witnesses. -/
def clOne : ComponentList :=
  ((ComponentList.new 7 2).add 1 ⟨7, [10, 11]⟩).1

/-! ## Characterisations and claim theorems -/

theorem has_eq_true_iff (st : ComponentList) (e : Nat) :
    st.has e = true ↔ (e < st.enabled.length ∧ bget st.enabled e = true) := by
  simp [ComponentList.has]

/-- Claim C2, counterexample: the spec says an index beyond the entities
array is reported invalid, but on the empty registry the nil entity has
an in-claim index (0 ≥ length 0) and is_valid is an out-of-bounds panic
(none), not the value false. -/
theorem claim_C2_counterexample :
    EntityManager.new.entities.length ≤ Entity.nil.index
    ∧ EntityManager.new.is_valid Entity.nil ≠ some false := by
  decide

/-- Claim C2 as amended: is_valid is NOT bounds-checked; for every entity
whose index is at or beyond the entities array length the raw indexing
panics (none) instead of returning false. -/
theorem claim_C2_amended (m : EntityManager) (e : Entity)
    (h : m.entities.length ≤ e.index) : m.is_valid e = none := by
  unfold EntityManager.is_valid
  rw [List.getElem?_eq_none h]

/-- Witness for claim C2 amended at the empty registry and nil entity. -/
theorem claim_C2_amended_witness :
    EntityManager.new.entities.length ≤ Entity.nil.index
    ∧ EntityManager.new.is_valid Entity.nil = none :=
  ⟨by decide, claim_C2_amended EntityManager.new Entity.nil (by decide)⟩

/-- Claim C3, counterexample: delete_entity does not complete on an
entity whose index is beyond the slots array; on the empty registry it
is an out-of-bounds panic (none), so the library does abort rather than
report a no-op. -/
theorem claim_C3_counterexample :
    EntityManager.new.entities.length ≤ Entity.nil.index
    ∧ EntityManager.new.delete_entity Entity.nil = none := by
  decide

/-- Claim C3 as amended: when the entity index is inside both parallel
arrays, delete_entity completes and performs exactly its three steps
(slot reset to nil, enabled bit cleared, index released to the pool);
an out-of-range index is an out-of-bounds panic, not a reported no-op. -/
theorem claim_C3_amended (m : EntityManager) (e : Entity)
    (h1 : e.index < m.entities.length) (h2 : e.index < m.enabled.length) :
    m.delete_entity e =
      some ⟨m.ids.return_id e.index, m.entities.set e.index Entity.nil,
            bset m.enabled e.index false, m.uuidCtr⟩ := by
  unfold EntityManager.delete_entity
  rw [if_pos ⟨h1, h2⟩]

/-- Witness for claim C3 amended on a registry holding one entity. -/
theorem claim_C3_amended_witness :
    Entity.nil.index < emOne.entities.length
    ∧ emOne.delete_entity Entity.nil =
      some ⟨emOne.ids.return_id 0, emOne.entities.set 0 Entity.nil,
            bset emOne.enabled 0 false, emOne.uuidCtr⟩ :=
  ⟨by decide, claim_C3_amended emOne Entity.nil (by decide) (by decide)⟩

/-- Claim C7: an add, set or add_or_set call whose value carries a type
tag different from the ComponentId of the store returns false and leaves the
store unchanged. -/
theorem claim_C7 (st : ComponentList) (e : Nat) (v : CompValue)
    (h : v.cid ≠ st.id) :
    st.add e v = (st, false) ∧ st.set e v = (st, false)
    ∧ st.add_or_set e v = (st, false) := by
  refine ⟨?_, ?_, ?_⟩
  · unfold ComponentList.add
    by_cases h1 : e < st.enabled.length ∧ bget st.enabled e = true
    · rw [if_pos h1]
    · rw [if_neg h1, if_pos h]
  · unfold ComponentList.set
    by_cases h1 : st.enabled.length ≤ e ∨ bget st.enabled e = false
    · rw [if_pos h1]
    · rw [if_neg h1, if_pos h]
  · unfold ComponentList.add_or_set
    rw [if_pos h]

/-- Witness for claim C7: the tag-9 value hits the tag-7 store. -/
theorem claim_C7_witness :
    ComponentList.add (ComponentList.new 7 2) 0 ⟨9, [1, 2, 3, 4]⟩ = (ComponentList.new 7 2, false)
    ∧ ComponentList.set (ComponentList.new 7 2) 0 ⟨9, [1, 2, 3, 4]⟩ = (ComponentList.new 7 2, false)
    ∧ ComponentList.add_or_set (ComponentList.new 7 2) 0 ⟨9, [1, 2, 3, 4]⟩ = (ComponentList.new 7 2, false) :=
  claim_C7 (ComponentList.new 7 2) 0 ⟨9, [1, 2, 3, 4]⟩ (by decide)

/-- Claim C9: rm on a present slot returns true and clears exactly the enabled bit of that slot, leaving the buffer (bytes, byte length and stride)
and the bit of every other slot unchanged; rm on an absent slot returns false
and changes nothing. -/
theorem claim_C9 (st : ComponentList) (e : Nat) :
    (st.has e = true →
      st.rm e = (⟨st.buffer, bset st.enabled e false, st.id⟩, true)
      ∧ (st.rm e).1.has e = false
      ∧ (st.rm e).1.buffer = st.buffer
      ∧ (st.rm e).1.enabled.length = st.enabled.length
      ∧ ∀ j, j ≠ e → bget (st.rm e).1.enabled j = bget st.enabled j)
    ∧ (st.has e = false → st.rm e = (st, false)) := by
  by_cases hc : e < st.enabled.length ∧ bget st.enabled e = true
  · have hrm : st.rm e = (⟨st.buffer, bset st.enabled e false, st.id⟩, true) := by
      unfold ComponentList.rm
      rw [if_pos hc]
    constructor
    · intro _
      refine ⟨hrm, ?_, by rw [hrm], by rw [hrm]; exact length_bset _ _ _, ?_⟩
      · rw [hrm]
        simp only [ComponentList.has]
        rw [bget_bset_eq st.enabled e false hc.1]
        simp
      · intro j hj
        rw [hrm]
        exact bget_bset_ne st.enabled e j false hj
    · intro hfalse
      rw [(has_eq_true_iff st e).mpr hc] at hfalse
      simp at hfalse
  · have hrm : st.rm e = (st, false) := by
      unfold ComponentList.rm
      rw [if_neg hc]
    constructor
    · intro htrue
      exact absurd ((has_eq_true_iff st e).mp htrue) hc
    · intro _
      exact hrm

/-- Witness for claim C9 on a store with slot 1 present. -/
theorem claim_C9_witness :
    clOne.has 1 = true
    ∧ clOne.rm 1 = (⟨clOne.buffer, bset clOne.enabled 1 false, clOne.id⟩, true)
    ∧ (clOne.rm 1).1.has 1 = false
    ∧ bget (clOne.rm 1).1.enabled 0 = bget clOne.enabled 0 :=
  ⟨by decide, ((claim_C9 clOne 1).1 (by decide)).1,
    ((claim_C9 clOne 1).1 (by decide)).2.1,
    ((claim_C9 clOne 1).1 (by decide)).2.2.2.2 0 (by decide)⟩

theorem writeAt_fresh_bytes (sz k : Nat) (v : List Nat) (hv : v.length = sz) :
    ((Buffer.new sz).writeAt k v).bytes = List.replicate (sz * k) 0 ++ v := by
  unfold Buffer.new Buffer.writeAt writeBytes vgrow
  dsimp only
  simp only [List.length_nil]
  rw [if_pos (Nat.zero_le _)]
  simp only [List.nil_append, Nat.sub_zero, hv]
  rw [List.take_replicate, List.drop_replicate]
  have h1 : min (sz * k) (sz * k + sz) = sz * k := by omega
  have h2 : sz * k + sz - (sz * k + sz) = 0 := by omega
  rw [h1, h2]
  simp

/-- Claim C6: writing logical index k into a fresh buffer (element size
sz, the stride) zero-fills every intermediate row 0..k-1 and leaves the
logical length exactly k+1. -/
theorem claim_C6 (sz k : Nat) (v : List Nat) (hs : 0 < sz) (hk : 0 < k)
    (hv : v.length = sz) :
    (∀ j, j < k →
      ((Buffer.new sz).writeAt k v).readAt sz j = some (List.replicate sz 0))
    ∧ ((Buffer.new sz).writeAt k v).len = k + 1 := by
  have hbytes := writeAt_fresh_bytes sz k v hv
  have hblen : ((Buffer.new sz).writeAt k v).bytes.length = sz * k + sz := by
    rw [hbytes]
    simp [hv]
  have hstride : ((Buffer.new sz).writeAt k v).stride = sz := rfl
  have hlen : ((Buffer.new sz).writeAt k v).len = k + 1 := by
    unfold Buffer.len
    rw [hblen, hstride]
    have : sz * k + sz = sz * (k + 1) := by ring
    rw [this, Nat.mul_div_cancel_left _ hs]
  refine ⟨?_, hlen⟩
  intro j hj
  unfold Buffer.readAt
  rw [if_pos (by rw [hlen]; omega)]
  rw [hbytes, List.drop_append_eq_append_drop, List.drop_replicate]
  simp only [List.length_replicate]
  have hd : sz * j - sz * k = 0 := by
    have : sz * j ≤ sz * k := Nat.mul_le_mul_left sz (le_of_lt hj)
    omega
  rw [hd, List.drop_zero, List.take_append_eq_append_take, List.take_replicate]
  simp only [List.length_replicate]
  have hszle : sz ≤ sz * k - sz * j := by
    have : sz * (j + 1) ≤ sz * k := Nat.mul_le_mul_left sz hj
    have hmul : sz * (j + 1) = sz * j + sz := by ring
    omega
  have h1 : min sz (sz * k - sz * j) = sz := by omega
  have h2 : sz - (sz * k - sz * j) = 0 := by omega
  rw [h1, h2]
  simp

/-- Witness for claim C6 at element size 1, write index 2. -/
theorem claim_C6_witness :
    ((Buffer.new 1).writeAt 2 [7]).readAt 1 0 = some [0]
    ∧ ((Buffer.new 1).writeAt 2 [7]).readAt 1 1 = some [0]
    ∧ ((Buffer.new 1).writeAt 2 [7]).len = 3 :=
  ⟨(claim_C6 1 2 [7] (by decide) (by decide) (by decide)).1 0 (by decide),
   (claim_C6 1 2 [7] (by decide) (by decide) (by decide)).1 1 (by decide),
   (claim_C6 1 2 [7] (by decide) (by decide) (by decide)).2⟩

theorem add_success_state (st : ComponentList) (e : Nat) (v : CompValue)
    (hvc : v.cid = st.id)
    (hna : ¬(e < st.enabled.length ∧ bget st.enabled e = true)) :
    st.add e v =
      (⟨st.buffer.writeAt e v.bytes,
        bset (if st.enabled.length ≤ e then
                vgrow st.enabled (e - st.enabled.length + 1) false
              else st.enabled) e true, st.id⟩, true) := by
  unfold ComponentList.add
  rw [if_neg hna, if_neg (not_not_intro hvc)]

theorem aos_state (st : ComponentList) (e : Nat) (v : CompValue)
    (hvc : v.cid = st.id) :
    st.add_or_set e v =
      (⟨st.buffer.writeAt e v.bytes,
        bset (if st.enabled.length ≤ e then
                vgrow st.enabled (e - st.enabled.length + 1) false
              else st.enabled) e true, st.id⟩, true) := by
  unfold ComponentList.add_or_set
  rw [if_neg (not_not_intro hvc)]

theorem has_eq_false (st : ComponentList) (e : Nat)
    (h : ¬(e < st.enabled.length ∧ bget st.enabled e = true)) : st.has e = false := by
  rw [← Bool.not_eq_true]
  intro ht
  exact h ((has_eq_true_iff st e).mp ht)

theorem grown_enabled_lt (l : List Bool) (e : Nat) :
    e < (if l.length ≤ e then vgrow l (e - l.length + 1) false else l).length := by
  by_cases h : l.length ≤ e
  · rw [if_pos h, length_vgrow]
    omega
  · rw [if_neg h]
    omega

/-- Claim C1: the store state machine on values of the store element
type.  After a successful add of v1 at slot e: a second add fails and
get still returns v1; a set of v2 succeeds and get returns v2; after rm
the slot reads absent; and add_or_set always succeeds, making the slot
present with value v1. -/
theorem claim_C1 (st : ComponentList) (e : Nat) (v1 v2 : CompValue)
    (h1c : v1.cid = st.id) (h1l : v1.bytes.length = st.buffer.stride)
    (h2c : v2.cid = st.id) (h2l : v2.bytes.length = st.buffer.stride)
    (hs : 0 < st.buffer.stride)
    (hadd : (st.add e v1).2 = true) :
    ((st.add e v1).1.add e v1 = ((st.add e v1).1, false)
      ∧ (st.add e v1).1.get st.buffer.stride e = some v1.bytes)
    ∧ (((st.add e v1).1.set e v2).2 = true
      ∧ ((st.add e v1).1.set e v2).1.get st.buffer.stride e = some v2.bytes)
    ∧ (∀ st2 : ComponentList,
        (st2.rm e).1.has e = false ∧ (st2.rm e).1.get st.buffer.stride e = none)
    ∧ ((st.add_or_set e v1).2 = true
      ∧ (st.add_or_set e v1).1.has e = true
      ∧ (st.add_or_set e v1).1.get st.buffer.stride e = some v1.bytes) := by
  have hna : ¬(e < st.enabled.length ∧ bget st.enabled e = true) := by
    intro hc
    unfold ComponentList.add at hadd
    rw [if_pos hc] at hadd
    simp at hadd
  have hst1 := add_success_state st e v1 h1c hna
  set en1 := (if st.enabled.length ≤ e then
      vgrow st.enabled (e - st.enabled.length + 1) false
    else st.enabled) with hen1
  have hlt1 : e < en1.length := grown_enabled_lt st.enabled e
  have hbit1 : bget (bset en1 e true) e = true := bget_bset_eq en1 e true hlt1
  have hlt1b : e < (bset en1 e true).length := by
    rw [length_bset]
    exact hlt1
  refine ⟨⟨?_, ?_⟩, ⟨?_, ?_⟩, ?_, ?_, ?_, ?_⟩
  · rw [hst1]
    unfold ComponentList.add
    rw [if_pos ⟨hlt1b, hbit1⟩]
  · rw [hst1]
    unfold ComponentList.get
    rw [if_pos ⟨hlt1b, hbit1⟩]
    exact readAt_writeAt st.buffer e v1.bytes h1l hs
  · rw [hst1]
    unfold ComponentList.set
    rw [if_neg (by push_neg; exact ⟨hlt1b, by simp [hbit1]⟩)]
    rw [if_neg (not_not_intro h2c)]
  · rw [hst1]
    unfold ComponentList.set
    rw [if_neg (by push_neg; exact ⟨hlt1b, by simp [hbit1]⟩)]
    rw [if_neg (not_not_intro h2c)]
    unfold ComponentList.get
    rw [if_pos ⟨hlt1b, hbit1⟩]
    have hv2 : v2.bytes.length = (st.buffer.writeAt e v1.bytes).stride := by
      rw [stride_writeAt]
      exact h2l
    have hs2 : 0 < (st.buffer.writeAt e v1.bytes).stride := by
      rw [stride_writeAt]
      exact hs
    have := readAt_writeAt (st.buffer.writeAt e v1.bytes) e v2.bytes hv2 hs2
    rw [stride_writeAt] at this
    exact this
  · intro st2
    by_cases hc : e < st2.enabled.length ∧ bget st2.enabled e = true
    · have hrm : st2.rm e = (⟨st2.buffer, bset st2.enabled e false, st2.id⟩, true) := by
        unfold ComponentList.rm
        rw [if_pos hc]
      constructor
      · rw [hrm]
        simp only [ComponentList.has]
        rw [bget_bset_eq st2.enabled e false hc.1]
        simp
      · rw [hrm]
        unfold ComponentList.get
        rw [if_neg (by
          intro hcc
          rw [bget_bset_eq st2.enabled e false hc.1] at hcc
          simp at hcc)]
    · have hrm : st2.rm e = (st2, false) := by
        unfold ComponentList.rm
        rw [if_neg hc]
      constructor
      · rw [hrm]
        exact has_eq_false st2 e hc
      · rw [hrm]
        unfold ComponentList.get
        rw [if_neg hc]
  · rw [aos_state st e v1 h1c]
  · rw [aos_state st e v1 h1c]
    simp only [ComponentList.has]
    rw [hbit1]
    simp [hlt1b]
  · rw [aos_state st e v1 h1c]
    unfold ComponentList.get
    rw [if_pos ⟨hlt1b, hbit1⟩]
    exact readAt_writeAt st.buffer e v1.bytes h1l hs

/-- Witness for claim C1 at a fresh tag-7 2-byte store, slot 1. -/
theorem claim_C1_witness :
    ((ComponentList.new 7 2).add 1 ⟨7, [10, 11]⟩).2 = true
    ∧ ((ComponentList.new 7 2).add 1 ⟨7, [10, 11]⟩).1.get 2 1 = some [10, 11]
    ∧ (((ComponentList.new 7 2).add 1 ⟨7, [10, 11]⟩).1.set 1 ⟨7, [20, 21]⟩).1.get 2 1 = some [20, 21]
    ∧ ((ComponentList.new 7 2).add_or_set 1 ⟨7, [10, 11]⟩).2 = true :=
  ⟨by decide,
   (claim_C1 (ComponentList.new 7 2) 1 ⟨7, [10, 11]⟩ ⟨7, [20, 21]⟩ rfl rfl rfl rfl
      (by decide) (by decide)).1.2,
   (claim_C1 (ComponentList.new 7 2) 1 ⟨7, [10, 11]⟩ ⟨7, [20, 21]⟩ rfl rfl rfl rfl
      (by decide) (by decide)).2.1.2,
   (claim_C1 (ComponentList.new 7 2) 1 ⟨7, [10, 11]⟩ ⟨7, [20, 21]⟩ rfl rfl rfl rfl
      (by decide) (by decide)).2.2.2.1⟩

theorem mem_of_getLast_eq (l : List Nat) (a : Nat) (h : l.getLast? = some a) :
    a ∈ l := by
  cases l with
  | nil => simp at h
  | cons b t =>
    have hne : b :: t ≠ [] := by simp
    rw [List.getLast?_eq_getLast_of_ne_nil hne] at h
    have hm := List.getLast_mem hne
    rwa [Option.some_inj.mp h] at hm

theorem get_id_eq_pop (p : IdPool) (id : Nat) (h : p.recycled.getLast? = some id) :
    p.get_id = (id, ⟨p.recycled.dropLast, p.next_id⟩) := by
  unfold IdPool.get_id
  rw [h]

theorem get_id_eq_fresh (p : IdPool) (h : p.recycled.getLast? = none) :
    p.get_id = (p.next_id, ⟨p.recycled, p.next_id + 1⟩) := by
  unfold IdPool.get_id
  rw [h]

theorem poolInv_get_pos (s : IdPool × List Nat) (h : poolInv s) :
    1 ≤ (s.1.get_id).1 := by
  obtain ⟨h1, h2, h3⟩ := h
  cases hl : s.1.recycled.getLast? with
  | none =>
    rw [get_id_eq_fresh s.1 hl]
    exact h1
  | some id =>
    rw [get_id_eq_pop s.1 id hl]
    exact h2 id (h3 id (mem_of_getLast_eq _ id hl))

theorem poolInv_step_acquire (s : IdPool × List Nat) (h : poolInv s) :
    poolInv ((s.1.get_id).2, (s.1.get_id).1 :: s.2) := by
  have hpos := poolInv_get_pos s h
  obtain ⟨h1, h2, h3⟩ := h
  cases hl : s.1.recycled.getLast? with
  | none =>
    rw [get_id_eq_fresh s.1 hl] at hpos ⊢
    refine ⟨?_, ?_, ?_⟩
    · show 1 ≤ s.1.next_id + 1
      omega
    · intro i hi
      rcases List.mem_cons.mp hi with hi | hi
      · show 1 ≤ i
        have : i = s.1.next_id := hi
        omega
      · exact h2 i hi
    · intro r hr
      exact List.mem_cons_of_mem _ (h3 r hr)
  | some id =>
    rw [get_id_eq_pop s.1 id hl] at hpos ⊢
    dsimp only at hpos ⊢
    refine ⟨h1, ?_, ?_⟩
    · intro i hi
      rcases List.mem_cons.mp hi with hi | hi
      · rw [hi]
        exact hpos
      · exact h2 i hi
    · intro r hr
      have hr2 : r ∈ s.1.recycled := (List.dropLast_sublist _).subset hr
      exact List.mem_cons_of_mem _ (h3 r hr2)

theorem poolInv_step_release (s : IdPool × List Nat) (id : Nat)
    (hmem : s.2.contains id = true) (h : poolInv s) :
    poolInv (s.1.return_id id, s.2) := by
  obtain ⟨h1, h2, h3⟩ := h
  refine ⟨h1, h2, ?_⟩
  intro r hr
  unfold IdPool.return_id at hr
  rcases List.mem_append.mp hr with hr | hr
  · exact h3 r hr
  · rw [List.mem_singleton.mp hr]
    simpa using hmem

theorem poolRun_inv (ops : List PoolOp) (s : IdPool × List Nat)
    (hwf : onlyIssued ops s = true) (h : poolInv s) :
    poolInv (poolRun ops s) := by
  induction ops generalizing s with
  | nil => exact h
  | cons op rest ih =>
    cases op with
    | acquire =>
      exact ih _ hwf (poolInv_step_acquire s h)
    | release id =>
      rw [onlyIssued, Bool.and_eq_true] at hwf
      exact ih _ hwf.2 (poolInv_step_release s id hwf.1 h)

theorem next_id_step_get (p : IdPool) : p.next_id ≤ ((p.get_id).2).next_id := by
  cases hl : p.recycled.getLast? with
  | none =>
    rw [get_id_eq_fresh p hl]
    dsimp only
    omega
  | some id =>
    rw [get_id_eq_pop p id hl]

theorem poolRun_next_mono (ops : List PoolOp) (s : IdPool × List Nat) :
    s.1.next_id ≤ (poolRun ops s).1.next_id := by
  induction ops generalizing s with
  | nil => exact le_refl _
  | cons op rest ih =>
    cases op with
    | acquire =>
      calc s.1.next_id ≤ ((s.1.get_id).2).next_id := next_id_step_get s.1
        _ ≤ _ := ih ((s.1.get_id).2, (s.1.get_id).1 :: s.2)
    | release id =>
      exact ih (s.1.return_id id, s.2)

/-- Claim C5: the pool pops the most recently released slot first
(return_id then get_id restores the pool and yields the released slot);
with an empty free list it issues the counter value and increments it,
the counter starting at 1 at construction and never decreasing over any
run; and in any run from a fresh pool that releases only previously
issued ids, get_id never returns 0. -/
theorem claim_C5 :
    (∀ (p : IdPool) (s : Nat), (p.return_id s).get_id = (s, p))
    ∧ (∀ p : IdPool, p.recycled = [] →
        p.get_id = (p.next_id, ⟨[], p.next_id + 1⟩))
    ∧ IdPool.new.next_id = 1
    ∧ (∀ (ops : List PoolOp) (s : IdPool × List Nat),
        s.1.next_id ≤ (poolRun ops s).1.next_id)
    ∧ (∀ ops : List PoolOp, onlyIssued ops (IdPool.new, []) = true →
        1 ≤ ((poolRun ops (IdPool.new, [])).1.get_id).1) := by
  refine ⟨?_, ?_, rfl, poolRun_next_mono, ?_⟩
  · intro p s
    have hl : (p.return_id s).recycled.getLast? = some s := by
      unfold IdPool.return_id
      simp
    rw [get_id_eq_pop _ s hl]
    unfold IdPool.return_id
    simp
  · intro p hp
    rw [get_id_eq_fresh p (by rw [hp]; rfl)]
    rw [hp]
  · intro ops hwf
    refine poolInv_get_pos _ (poolRun_inv ops (IdPool.new, []) hwf ?_)
    refine ⟨le_refl _, ?_, ?_⟩
    · intro i hi
      simp at hi
    · intro r hr
      simp [IdPool.new] at hr

/-- Witness for claim C5: release 9 onto a pool then reacquire it; a
fresh-counter pool issues 4 then 5; a three-operation run from the new
pool yields a positive id. -/
theorem claim_C5_witness :
    (IdPool.return_id ⟨[3], 5⟩ 9).get_id = (9, ⟨[3], 5⟩)
    ∧ IdPool.get_id ⟨[], 4⟩ = (4, ⟨[], 5⟩)
    ∧ (onlyIssued [PoolOp.acquire, PoolOp.release 1, PoolOp.acquire] (IdPool.new, []) = true
       ∧ 1 ≤ ((poolRun [PoolOp.acquire, PoolOp.release 1, PoolOp.acquire] (IdPool.new, [])).1.get_id).1) :=
  ⟨claim_C5.1 ⟨[3], 5⟩ 9, claim_C5.2.1 ⟨[], 4⟩ rfl,
   by decide,
   claim_C5.2.2.2.2 [PoolOp.acquire, PoolOp.release 1, PoolOp.acquire] (by decide)⟩

theorem bget_grown (l : List Bool) (e i : Nat) :
    bget (if l.length ≤ e then vgrow l (e - l.length + 1) false else l) i
      = bget l i := by
  by_cases h : l.length ≤ e
  · rw [if_pos h]
    exact bget_vgrow_false l _ i
  · rw [if_neg h]

theorem bget_bset_false_le (l : List Bool) (e i : Nat)
    (h : bget (bset l e false) i = true) : bget l i = true := by
  by_cases hie : i = e
  · subst hie
    by_cases hlt : i < l.length
    · rw [bget_bset_eq l i false hlt] at h
      exact absurd h (by simp)
    · rwa [bset_oob l i false (by omega)] at h
  · rwa [bget_bset_ne l e i false hie] at h

theorem clInv_add (cid sz : Nat) (st : ComponentList) (e : Nat) (v : CompValue)
    (hvc : v.cid = cid) (hvl : v.bytes.length = sz) (h : clInv cid sz st) :
    clInv cid sz (st.add e v).1 := by
  obtain ⟨hid, hstr, hrow⟩ := h
  by_cases hc : e < st.enabled.length ∧ bget st.enabled e = true
  · unfold ComponentList.add
    rw [if_pos hc]
    exact ⟨hid, hstr, hrow⟩
  · rw [add_success_state st e v (by rw [hvc, hid]) hc]
    have hv : v.bytes.length = st.buffer.stride := by rw [hvl, hstr]
    have hlen := length_bytes_writeAt st.buffer e v.bytes hv
    refine ⟨hid, by rw [stride_writeAt]; exact hstr, ?_⟩
    intro i hi
    rw [hlen]
    by_cases hie : i = e
    · subst hie
      have : sz * (i + 1) = st.buffer.stride * (i + 1) := by rw [hstr]
      rw [this]
      exact le_max_right _ _
    · rw [bget_bset_ne _ e i true hie, bget_grown st.enabled e i] at hi
      exact le_trans (hrow i hi) (le_max_left _ _)

theorem clInv_aos (cid sz : Nat) (st : ComponentList) (e : Nat) (v : CompValue)
    (hvc : v.cid = cid) (hvl : v.bytes.length = sz) (h : clInv cid sz st) :
    clInv cid sz (st.add_or_set e v).1 := by
  obtain ⟨hid, hstr, hrow⟩ := h
  rw [aos_state st e v (by rw [hvc, hid])]
  have hv : v.bytes.length = st.buffer.stride := by rw [hvl, hstr]
  have hlen := length_bytes_writeAt st.buffer e v.bytes hv
  refine ⟨hid, by rw [stride_writeAt]; exact hstr, ?_⟩
  intro i hi
  rw [hlen]
  by_cases hie : i = e
  · subst hie
    have : sz * (i + 1) = st.buffer.stride * (i + 1) := by rw [hstr]
    rw [this]
    exact le_max_right _ _
  · rw [bget_bset_ne _ e i true hie, bget_grown st.enabled e i] at hi
    exact le_trans (hrow i hi) (le_max_left _ _)

theorem clInv_set (cid sz : Nat) (st : ComponentList) (e : Nat) (v : CompValue)
    (hvc : v.cid = cid) (hvl : v.bytes.length = sz) (h : clInv cid sz st) :
    clInv cid sz (st.set e v).1 := by
  obtain ⟨hid, hstr, hrow⟩ := h
  unfold ComponentList.set
  by_cases hc : st.enabled.length ≤ e ∨ bget st.enabled e = false
  · rw [if_pos hc]
    exact ⟨hid, hstr, hrow⟩
  · rw [if_neg hc, if_neg (not_not_intro (by rw [hvc, hid]))]
    have hv : v.bytes.length = st.buffer.stride := by rw [hvl, hstr]
    have hlen := length_bytes_writeAt st.buffer e v.bytes hv
    refine ⟨hid, by rw [stride_writeAt]; exact hstr, ?_⟩
    intro i hi
    rw [hlen]
    exact le_trans (hrow i hi) (le_max_left _ _)

theorem clInv_rm (cid sz : Nat) (st : ComponentList) (e : Nat)
    (h : clInv cid sz st) : clInv cid sz (st.rm e).1 := by
  obtain ⟨hid, hstr, hrow⟩ := h
  unfold ComponentList.rm
  by_cases hc : e < st.enabled.length ∧ bget st.enabled e = true
  · rw [if_pos hc]
    refine ⟨hid, hstr, ?_⟩
    intro i hi
    exact hrow i (bget_bset_false_le st.enabled e i hi)
  · rw [if_neg hc]
    exact ⟨hid, hstr, hrow⟩

theorem clInv_sRun (cid sz : Nat) (ops : List SOp) (st : ComponentList)
    (hwf : sWF cid sz ops = true) (h : clInv cid sz st) :
    clInv cid sz (sRun st ops) := by
  induction ops generalizing st with
  | nil => exact h
  | cons op rest ih =>
    cases op with
    | addOp e v =>
      rw [sWF, Bool.and_eq_true, Bool.and_eq_true] at hwf
      exact ih _ hwf.2 (clInv_add cid sz st e v
        (of_decide_eq_true hwf.1.1) (of_decide_eq_true hwf.1.2) h)
    | setOp e v =>
      rw [sWF, Bool.and_eq_true, Bool.and_eq_true] at hwf
      exact ih _ hwf.2 (clInv_set cid sz st e v
        (of_decide_eq_true hwf.1.1) (of_decide_eq_true hwf.1.2) h)
    | aosOp e v =>
      rw [sWF, Bool.and_eq_true, Bool.and_eq_true] at hwf
      exact ih _ hwf.2 (clInv_aos cid sz st e v
        (of_decide_eq_true hwf.1.1) (of_decide_eq_true hwf.1.2) h)
    | rmOp e =>
      rw [sWF] at hwf
      exact ih _ hwf (clInv_rm cid sz st e h)

/-- Claim C8: in every store state reached from the fresh store by any
sequence of add, set, add_or_set and rm operations on values of the
store element type (tag cid, size sz > 0), every enabled slot i has a
full buffer row: (i+1)*sz bytes exist and the logical length exceeds i. -/
theorem claim_C8 (cid sz : Nat) (ops : List SOp) (hs : 0 < sz)
    (hwf : sWF cid sz ops = true) :
    ∀ i, bget (sRun (ComponentList.new cid sz) ops).enabled i = true →
      (i + 1) * sz ≤ (sRun (ComponentList.new cid sz) ops).buffer.bytes_len
      ∧ i < (sRun (ComponentList.new cid sz) ops).buffer.len := by
  have hinv : clInv cid sz (sRun (ComponentList.new cid sz) ops) := by
    refine clInv_sRun cid sz ops _ hwf ⟨rfl, rfl, ?_⟩
    intro i hi
    simp [ComponentList.new, bget] at hi
  obtain ⟨hid, hstr, hrow⟩ := hinv
  intro i hi
  have hb := hrow i hi
  constructor
  · unfold Buffer.bytes_len
    calc (i + 1) * sz = sz * (i + 1) := by ring
      _ ≤ _ := hb
  · unfold Buffer.len
    rw [hstr]
    have : i + 1 ≤ (sRun (ComponentList.new cid sz) ops).buffer.bytes.length / sz :=
      (Nat.le_div_iff_mul_le hs).mpr (by calc (i + 1) * sz = sz * (i + 1) := by ring
        _ ≤ _ := hb)
    omega

/-- Witness for claim C8: one add at slot 1 on the tag-7 2-byte store. -/
theorem claim_C8_witness :
    sWF 7 2 [SOp.addOp 1 ⟨7, [10, 11]⟩] = true
    ∧ bget (sRun (ComponentList.new 7 2) [SOp.addOp 1 ⟨7, [10, 11]⟩]).enabled 1 = true
    ∧ (2 * 2 ≤ (sRun (ComponentList.new 7 2) [SOp.addOp 1 ⟨7, [10, 11]⟩]).buffer.bytes_len
       ∧ 1 < (sRun (ComponentList.new 7 2) [SOp.addOp 1 ⟨7, [10, 11]⟩]).buffer.len) :=
  ⟨by decide, by decide,
   claim_C8 7 2 [SOp.addOp 1 ⟨7, [10, 11]⟩] (by decide) (by decide) 1 (by decide)⟩

theorem lt_length_grown {α : Type} (l : List α) (id : Nat) (fill : α) :
    id < (if l.length ≤ id then vgrow l (id - l.length + 1) fill else l).length := by
  by_cases h : l.length ≤ id
  · rw [if_pos h, length_vgrow]
    omega
  · rw [if_neg h]
    omega

theorem get_id_return_id (p : IdPool) (s : Nat) : (p.return_id s).get_id = (s, p) := by
  have hl : (p.return_id s).recycled.getLast? = some s := by
    unfold IdPool.return_id
    simp
  rw [get_id_eq_pop _ s hl]
  unfold IdPool.return_id
  simp

theorem create_entity_eq (m : EntityManager) :
    m.create_entity =
      (⟨(m.ids.get_id).1, m.uuidCtr + 1⟩,
       ⟨(m.ids.get_id).2,
        (if m.entities.length ≤ (m.ids.get_id).1 then
           vgrow m.entities ((m.ids.get_id).1 - m.entities.length + 1) Entity.nil
         else m.entities).set (m.ids.get_id).1 ⟨(m.ids.get_id).1, m.uuidCtr + 1⟩,
        bset (if m.enabled.length ≤ (m.ids.get_id).1 then
           vgrow m.enabled ((m.ids.get_id).1 - m.enabled.length + 1) false
         else m.enabled) (m.ids.get_id).1 true,
        m.uuidCtr + 1⟩) := rfl

/-- Claim C4: from any registry state, create then delete then create
reuses the index (LIFO), the first entity is no longer valid and the
second one is valid. -/
theorem claim_C4 (m : EntityManager) :
    ∃ m2 : EntityManager,
      (m.create_entity).2.delete_entity (m.create_entity).1 = some m2
      ∧ ((m2.create_entity).1).index = ((m.create_entity).1).index
      ∧ (m2.create_entity).2.is_valid (m.create_entity).1 = some false
      ∧ (m2.create_entity).2.is_valid (m2.create_entity).1 = some true := by
  have hc1 := create_entity_eq m
  set id := (m.ids.get_id).1 with hid
  set p1 := (m.ids.get_id).2 with hp1
  set u := m.uuidCtr with hu
  set e1 : Entity := ⟨id, u + 1⟩ with he1
  set ents1 := (if m.entities.length ≤ id then
      vgrow m.entities (id - m.entities.length + 1) Entity.nil
    else m.entities).set id e1 with hents1
  set en1 := bset (if m.enabled.length ≤ id then
      vgrow m.enabled (id - m.enabled.length + 1) false
    else m.enabled) id true with hen1
  have hm1 : m.create_entity = (e1, ⟨p1, ents1, en1, u + 1⟩) := hc1
  have hlents1 : id < ents1.length := by
    rw [hents1, List.length_set]
    exact lt_length_grown m.entities id Entity.nil
  have hlen1 : id < en1.length := by
    rw [hen1, length_bset]
    exact lt_length_grown m.enabled id false
  set m2 : EntityManager :=
    ⟨p1.return_id id, ents1.set id Entity.nil, bset en1 id false, u + 1⟩ with hm2
  have hdel : (⟨p1, ents1, en1, u + 1⟩ : EntityManager).delete_entity e1 = some m2 := by
    unfold EntityManager.delete_entity
    rw [if_pos ⟨hlents1, hlen1⟩]
  set e2 : Entity := ⟨id, u + 2⟩ with he2
  have hlents2 : id < (ents1.set id Entity.nil).length := by
    rw [List.length_set]
    exact hlents1
  have hlen2 : id < (bset en1 id false).length := by
    rw [length_bset]
    exact hlen1
  have hm3 : m2.create_entity =
      (e2, ⟨p1, (ents1.set id Entity.nil).set id e2,
            bset (bset en1 id false) id true, u + 2⟩) := by
    have hc2 := create_entity_eq m2
    rw [hm2] at hc2
    dsimp only at hc2
    rw [get_id_return_id p1 id] at hc2
    dsimp only at hc2
    rw [if_neg (by rw [List.length_set]; omega),
        if_neg (by rw [length_bset]; omega)] at hc2
    rw [hm2]
    exact hc2
  have hne : (⟨id, u + 2⟩ : Entity) ≠ ⟨id, u + 1⟩ := by
    intro hcontra
    have := congrArg Entity.uuid hcontra
    simp at this
  refine ⟨m2, ?_, ?_, ?_, ?_⟩
  · rw [hm1]
    exact hdel
  · rw [hm1, hm3]
  · rw [hm1, hm3]
    dsimp only
    unfold EntityManager.is_valid
    dsimp only
    rw [List.getElem?_set_eq_of_lt e2 (by rw [List.length_set]; exact hlents1)]
    dsimp only [Option.some.injEq]
    rw [if_neg hne]
  · rw [hm3]
    dsimp only
    unfold EntityManager.is_valid
    dsimp only
    rw [List.getElem?_set_eq_of_lt e2 (by rw [List.length_set]; exact hlents1)]
    dsimp only
    rw [if_pos rfl]
    have hblen : id < (bset (bset en1 id false) id true).length := by
      rw [length_bset]
      exact hlen2
    rw [getElem?_bget _ id hblen, bget_bset_eq _ id true hlen2]

theorem emInv_get_pos (m : EntityManager) (h : EMInv m) : 1 ≤ (m.ids.get_id).1 := by
  obtain ⟨h1, h2, _, _⟩ := h
  cases hl : m.ids.recycled.getLast? with
  | none =>
    rw [get_id_eq_fresh _ hl]
    exact h1
  | some id =>
    rw [get_id_eq_pop _ id hl]
    exact h2 id (mem_of_getLast_eq _ id hl)

theorem emInv_create (m : EntityManager) (h : EMInv m) :
    EMInv (m.create_entity).2 := by
  have hpos : 1 ≤ (m.ids.get_id).1 := emInv_get_pos m h
  obtain ⟨h1, h2, h3, h4⟩ := h
  rw [create_entity_eq m]
  dsimp only
  refine ⟨?_, ?_, ?_, ?_⟩
  · cases hl : m.ids.recycled.getLast? with
    | none =>
      rw [get_id_eq_fresh _ hl]
      dsimp only
      omega
    | some id =>
      rw [get_id_eq_pop _ id hl]
      dsimp only
      exact h1
  · cases hl : m.ids.recycled.getLast? with
    | none =>
      rw [get_id_eq_fresh _ hl]
      dsimp only
      exact h2
    | some id =>
      rw [get_id_eq_pop _ id hl]
      dsimp only
      intro r hr
      exact h2 r ((List.dropLast_sublist _).subset hr)
  · rw [bget_bset_ne _ _ _ _ (by omega), bget_grown]
    exact h3
  · rw [List.length_set, length_bset]
    by_cases hle : m.entities.length ≤ (m.ids.get_id).1
    · rw [if_pos hle, if_pos (by omega : m.enabled.length ≤ (m.ids.get_id).1),
        length_vgrow, length_vgrow]
      omega
    · rw [if_neg hle, if_neg (by omega : ¬m.enabled.length ≤ (m.ids.get_id).1)]
      exact h4

theorem emInv_delete (m : EntityManager) (e : Entity) (m2 : EntityManager)
    (hv : m.is_valid e = some true) (hd : m.delete_entity e = some m2)
    (h : EMInv m) : EMInv m2 := by
  obtain ⟨h1, h2, h3, h4⟩ := h
  unfold EntityManager.is_valid at hv
  cases hge : m.entities[e.index]? with
  | none =>
    rw [hge] at hv
    exact absurd hv (by simp)
  | some owner =>
    rw [hge] at hv
    dsimp only at hv
    by_cases howner : owner = e
    · rw [if_pos howner] at hv
      have hblt : e.index < m.enabled.length := by
        by_contra hc
        rw [List.getElem?_eq_none (by omega)] at hv
        exact absurd hv (by simp)
      rw [getElem?_bget m.enabled e.index hblt] at hv
      have hbit : bget m.enabled e.index = true := by
        exact Option.some_inj.mp hv
      have hipos : 1 ≤ e.index := by
        by_contra hc
        have h0 : e.index = 0 := by omega
        rw [h0] at hbit
        rw [h3] at hbit
        exact absurd hbit (by simp)
      unfold EntityManager.delete_entity at hd
      by_cases hcond : e.index < m.entities.length ∧ e.index < m.enabled.length
      · rw [if_pos hcond] at hd
        have hm2 := Option.some_inj.mp hd
        rw [← hm2]
        refine ⟨h1, ?_, ?_, ?_⟩
        · intro r hr
          unfold IdPool.return_id at hr
          dsimp only at hr
          rcases List.mem_append.mp hr with hr | hr
          · exact h2 r hr
          · rw [List.mem_singleton.mp hr]
            exact hipos
        · dsimp only
          rw [bget_bset_ne _ _ _ _ (by omega)]
          exact h3
        · dsimp only
          rw [List.length_set, length_bset]
          exact h4
      · rw [if_neg hcond] at hd
        exact absurd hd (by simp)
    · rw [if_neg howner] at hv
      exact absurd hv (by simp)

theorem emReach_inv (m : EntityManager) (h : EMReach m) : EMInv m := by
  induction h with
  | init =>
    refine ⟨le_refl 1, ?_, rfl, rfl⟩
    intro r hr
    simp [EntityManager.new, IdPool.new] at hr
  | create m hm ih => exact emInv_create m ih
  | delete m e m2 hm hv hd ih => exact emInv_delete m e m2 hv hd ih

/-- Claim C10: under the discipline that delete_entity is only applied
to currently valid entities, in every reachable registry state the next
created entity has index >= 1, slot 0 is never enabled, and once at
least one entity has been created (the arrays are non-empty) the nil
sentinel entity is reported invalid. -/
theorem claim_C10 (m : EntityManager) (h : EMReach m) :
    1 ≤ ((m.create_entity).1).index
    ∧ bget m.enabled 0 = false
    ∧ (1 ≤ m.entities.length → m.is_valid Entity.nil = some false) := by
  have hinv := emReach_inv m h
  obtain ⟨h1, h2, h3, h4⟩ := hinv
  refine ⟨?_, h3, ?_⟩
  · rw [create_entity_eq m]
    exact emInv_get_pos m ⟨h1, h2, h3, h4⟩
  · intro hlen
    unfold EntityManager.is_valid
    cases hge : m.entities[Entity.nil.index]? with
    | none =>
      rw [List.getElem?_eq_none_iff] at hge
      have h0 : Entity.nil.index = 0 := rfl
      omega
    | some owner =>
      dsimp only
      by_cases howner : owner = Entity.nil
      · rw [if_pos howner]
        have hblt : Entity.nil.index < m.enabled.length := by
          have h0 : Entity.nil.index = 0 := rfl
          omega
        rw [getElem?_bget m.enabled Entity.nil.index hblt]
        have h0 : Entity.nil.index = 0 := rfl
        rw [h0, h3]
      · rw [if_neg howner]

/-- Witness for claim C10 at the registry reached by one create call. -/
theorem claim_C10_witness :
    1 ≤ ((emOne.create_entity).1).index
    ∧ bget emOne.enabled 0 = false
    ∧ (1 ≤ emOne.entities.length ∧ emOne.is_valid Entity.nil = some false) := by
  have hr : EMReach emOne := EMReach.create EntityManager.new EMReach.init
  exact ⟨(claim_C10 emOne hr).1, (claim_C10 emOne hr).2.1, by decide,
    (claim_C10 emOne hr).2.2 (by decide)⟩
